import Mathlib

/-!
Verification of the RAG core (chunker, vector-store scoring, retriever,
pipeline) against its specification.  The definitions below are a shallow
embedding of the Python sources:

  * `src/chunker.py`      — `TextChunker.__init__`, `split_text`,
    `_split_by_characters`, `_create_chunk`, `chunk_documents`
  * `src/vector_store.py` — the distance→score conversion of `VectorStore.search`
  * `src/retriever.py`    — `Retriever.retrieve`, `retrieve_with_context`,
    `get_sources`
  * `src/rag_pipeline.py` — `RAGPipeline.query`

Python strings are modelled as `List Char`, Python slicing / `rfind` /
`strip` / `split` are modelled by `py*` helpers with Python's index
semantics (negative indices wrap, out-of-range indices clamp).  Machine
floats appearing as similarity scores are modelled as rationals.
External collaborators (embedder, vector database, generator) are
function parameters; calls to them are counted explicitly where a claim
speaks about "without calling X".  The character-window loop of the
chunker is not structurally terminating (indeed it can diverge), so it is
written fuel-indexed and returns `Option`.
-/

namespace RAG

/-- Python `str.strip` whitespace characters (the ASCII ones). -/
def isPySpace (c : Char) : Bool :=
  c = ' ' || c = '\t' || c = '\n' || c = '\x0d' || c = '\x0b' || c = '\x0c'

/-- Python `s.strip()` on a list of characters. -/
def pyStrip (l : List Char) : List Char :=
  ((l.dropWhile isPySpace).reverse.dropWhile isPySpace).reverse

/-- Adjust a Python slice index to an absolute position in `[0, n]`:
negative indices count from the end (clamped at 0), positive ones are
clamped at `n`. -/
def pyAdj (n : Nat) (i : Int) : Nat :=
  if i < 0 then (n + i).toNat else min i.toNat n

/-- Python `t[a:b]`. -/
def pySlice (t : List Char) (a b : Int) : List Char :=
  (t.take (pyAdj t.length b)).drop (pyAdj t.length a)

/-- Python `t[a:]`. -/
def pySliceFrom (t : List Char) (a : Int) : List Char :=
  t.drop (pyAdj t.length a)

/-- Python `t.rfind(" ", a, b)`: the largest absolute index of a space in
the (adjusted) range, or `-1`. -/
def pyRfindSpace (t : List Char) (a b : Int) : Int :=
  let lo := pyAdj t.length a
  let hi := pyAdj t.length b
  match ((List.range hi).filter fun i => decide (lo ≤ i) && (t.getD i 'a' == ' ')).getLast? with
  | some i => (i : Int)
  | none => -1

/-- First index at which `sep` occurs as a contiguous sublist of `t`. -/
def findSub (t sep : List Char) : Option Nat :=
  match t with
  | [] => if sep = [] then some 0 else none
  | _ :: t' => if sep.isPrefixOf t then some 0 else (findSub t' sep).map (· + 1)

/-- Worker for `pySplit`, fuelled by the length of the text. -/
def pySplitAux (sep : List Char) : Nat → List Char → List (List Char)
  | 0, t => [t]
  | fuel + 1, t =>
    match findSub t sep with
    | none => [t]
    | some i => t.take i :: pySplitAux sep fuel (t.drop (i + sep.length))

/-- Python `t.split(sep)` for a non-empty separator. -/
def pySplit (t sep : List Char) : List (List Char) :=
  pySplitAux sep t.length t

/-- Scalar metadata values (Python puts strings and ints in these dicts). -/
inductive PyVal
  | str (s : String)
  | int (n : Int)
deriving DecidableEq, Repr

/-- Python's string rendering of a metadata value (as in f-strings). -/
def pyValStr : PyVal → String
  | .str s => s
  | .int n => toString n

/-- A Python dict with string keys, as an insertion-ordered association list. -/
abbrev Dict := List (String × PyVal)

/-- Python `d[k] = v`: update in place (keeping the key's position) or append. -/
def dictSet : Dict → String → PyVal → Dict
  | [], k, v => [(k, v)]
  | (k', v') :: rest, k, v =>
    if k' = k then (k, v) :: rest else (k', v') :: dictSet rest k v

/-- Python `d.get(k)`. -/
def dictGet : Dict → String → Option PyVal
  | [], _ => none
  | (k', v') :: rest, k => if k' = k then some v' else dictGet rest k

/-- `Chunk` from `src/chunker.py`. -/
structure Chunk where
  content : List Char
  metadata : Dict
  chunk_id : String
deriving DecidableEq, Repr

/-- `TextChunker.__init__` from `src/chunker.py`: the only validation is
`chunk_overlap >= chunk_size` (a `ValueError`); nothing rejects negative
overlap.  `none` models the raised error. -/
def TextChunker_init (chunk_size chunk_overlap : Int) : Option (Int × Int) :=
  if chunk_size ≤ chunk_overlap then none else some (chunk_size, chunk_overlap)

/-- `TextChunker._create_chunk` from `src/chunker.py`. -/
def _create_chunk (content : List Char) (base_metadata : Dict) (index : Nat) : Chunk :=
  let chunk_metadata :=
    dictSet (dictSet base_metadata "chunk_index" (PyVal.int index))
      "chunk_size" (PyVal.int content.length)
  let source := (dictGet base_metadata "source").getD (PyVal.str "unknown")
  ⟨content, chunk_metadata, pyValStr source ++ "_chunk_" ++ toString index⟩

/-- The `while start < len(text)` loop of `TextChunker._split_by_characters`,
fuel-indexed because it can diverge.  The loop variable `start` is an `Int`:
`start = end - chunk_overlap` can go negative, after which Python's slice
semantics (negative indices wrap) apply. -/
def _split_by_characters_loop (cs co : Nat) (t : List Char) (md : Dict) :
    Nat → Int → Nat → List Chunk → Option (List Chunk)
  | 0, _, _, _ => none
  | fuel + 1, start, chunk_index, chunks =>
    if start < (t.length : Int) then
      let e : Int := start + (cs : Int)
      if (t.length : Int) ≤ e then
        let ct := pyStrip (pySliceFrom t start)
        some (if ct = [] then chunks else chunks ++ [_create_chunk ct md chunk_index])
      else
        let ls := pyRfindSpace t start e
        let e2 := if start < ls then ls else e
        let ct := pyStrip (pySlice t start e2)
        let st : Nat × List Chunk :=
          if ct = [] then (chunk_index, chunks)
          else (chunk_index + 1, chunks ++ [_create_chunk ct md chunk_index])
        _split_by_characters_loop cs co t md fuel (e2 - (co : Int)) st.1 st.2
    else some chunks

/-- `TextChunker._split_by_characters` from `src/chunker.py`. -/
def _split_by_characters (cs co : Nat) (fuel : Nat) (t : List Char) (md : Dict)
    (start_index : Nat) : Option (List Chunk) :=
  _split_by_characters_loop cs co t md fuel 0 start_index []

/-- The `for segment in segments` loop of `TextChunker.split_text`,
carrying the accumulated chunk list and the running buffer `current_chunk`. -/
def split_text_loop (cs co : Nat) (sep : List Char) (fuel : Nat) (md : Dict) :
    List (List Char) → List Chunk → List Char → Option (List Chunk × List Char)
  | [], chunks, cur => some (chunks, cur)
  | seg :: rest, chunks, cur =>
    let s := pyStrip seg
    if s = [] then split_text_loop cs co sep fuel md rest chunks cur
    else if cs < s.length then
      let chunks1 := if cur = [] then chunks else chunks ++ [_create_chunk cur md chunks.length]
      match _split_by_characters cs co fuel s md chunks1.length with
      | none => none
      | some cc => split_text_loop cs co sep fuel md rest (chunks1 ++ cc) []
    else
      let test := if cur = [] then s else cur ++ sep ++ s
      if test.length ≤ cs then split_text_loop cs co sep fuel md rest chunks test
      else
        let chunks1 := if cur = [] then chunks else chunks ++ [_create_chunk cur md chunks.length]
        let cur1 := if 0 < co ∧ cur ≠ [] then cur.drop (cur.length - co) ++ [' '] ++ s else s
        split_text_loop cs co sep fuel md rest chunks1 cur1

/-- `TextChunker.split_text` from `src/chunker.py`.  `none` means the
character-window pass ran out of fuel (which, for a divergent input, it
does at every fuel). -/
def split_text (cs co : Nat) (sep : List Char) (fuel : Nat) (t : List Char)
    (md : Dict) : Option (List Chunk) :=
  if t = [] ∨ pyStrip t = [] then some []
  else
    match split_text_loop cs co sep fuel md (pySplit t sep) [] [] with
    | none => none
    | some (chunks, cur) =>
      some (if pyStrip cur = [] then chunks
            else chunks ++ [_create_chunk cur md chunks.length])

/-- `Document` as consumed by `TextChunker.chunk_documents`. -/
structure Document where
  content : List Char
  metadata : Dict
deriving DecidableEq, Repr

/-- The `for doc_idx, doc in enumerate(documents)` loop of
`TextChunker.chunk_documents`.  The Python code assigns
`metadata["doc_index"] = doc_idx` into the document's own metadata dict
before chunking; the second component of the result is the post-call
state of the input documents, making that mutation explicit. -/
def chunk_documents_loop (cs co : Nat) (sep : List Char) (fuel : Nat) :
    Nat → List Document → Option (List Chunk × List Document)
  | _, [] => some ([], [])
  | i, d :: ds =>
    let md' := dictSet d.metadata "doc_index" (PyVal.int i)
    match split_text cs co sep fuel d.content md' with
    | none => none
    | some cks =>
      match chunk_documents_loop cs co sep fuel (i + 1) ds with
      | none => none
      | some (rest, ds') => some (cks ++ rest, ⟨d.content, md'⟩ :: ds')

/-- `TextChunker.chunk_documents` from `src/chunker.py`. -/
def chunk_documents (cs co : Nat) (sep : List Char) (fuel : Nat)
    (documents : List Document) : Option (List Chunk × List Document) :=
  chunk_documents_loop cs co sep fuel 0 documents

/-- The distance→score conversion of `VectorStore.search`
(`score = 1 / (1 + dist)` in `src/vector_store.py`), floats modelled as ℚ. -/
def score (distance : ℚ) : ℚ := 1 / (1 + distance)

/-- `SearchResult` from `src/vector_store.py`. -/
structure SearchResult where
  content : List Char
  metadata : Dict
  distance : ℚ
  score : ℚ
deriving DecidableEq, Repr

/-- The result-assembly loop of `VectorStore.search`: each
`(document, metadata, distance)` row returned by the backing store becomes
a `SearchResult` whose score is `score distance`.  (Python's
`meta or {}` is the identity on our always-present dicts.) -/
def toSearchResults (rows : List (List Char × Dict × ℚ)) : List SearchResult :=
  rows.map fun r => ⟨r.1, r.2.1, r.2.2, score r.2.2⟩

/-- `RetrievalResult` from `src/retriever.py`. -/
structure RetrievalResult where
  content : List Char
  score : ℚ
  metadata : Dict
deriving DecidableEq, Repr

/-- A `Retriever` instance: the external embedder and the vector store's
`search` are opaque collaborator functions, plus the two configuration
fields of `Retriever.__init__`. -/
structure Retriever where
  embed : List Char → List ℚ
  search : List ℚ → Nat → Option Dict → List SearchResult
  top_k : Nat
  score_threshold : ℚ

/-- Python `a or b` on an optional int: `None` and `0` both fall back. -/
def pyOrNat (a : Option Nat) (b : Nat) : Nat :=
  match a with
  | none => b
  | some n => if n = 0 then b else n

/-- The filtering loop of `Retriever.retrieve` (lines 106–116 of
`src/retriever.py`): keep, in order, exactly the search results with
`score >= score_threshold`. -/
def filterResults (th : ℚ) : List SearchResult → List RetrievalResult
  | [] => []
  | sr :: rest =>
    if th ≤ sr.score then ⟨sr.content, sr.score, sr.metadata⟩ :: filterResults th rest
    else filterResults th rest

/-- `Retriever.retrieve` from `src/retriever.py`.  The second component
counts calls to `Embedder.embed_text` (0 or 1). -/
def retrieve (R : Retriever) (query : List Char) (top_k : Option Nat)
    (filter_metadata : Option Dict) : List RetrievalResult × Nat :=
  if query = [] ∨ pyStrip query = [] then ([], 0)
  else
    let k := pyOrNat top_k R.top_k
    let query_embedding := R.embed query
    let search_results := R.search query_embedding k filter_metadata
    (filterResults R.score_threshold search_results, 1)

/-- One formatted context block of `Retriever.retrieve_with_context`:
`f"[Kaynak {i}: {source}]\n{result.content}"` with
`source = result.metadata.get("filename", "Bilinmeyen")`. -/
def contextPart (i : Nat) (r : RetrievalResult) : List Char :=
  ("[Kaynak " ++ toString i ++ ": "
      ++ pyValStr ((dictGet r.metadata "filename").getD (PyVal.str "Bilinmeyen"))
      ++ "]\n").data ++ r.content

/-- Joins context blocks with the context separator. -/
def joinParts (sep : List Char) : List (List Char) → List Char
  | [] => []
  | [p] => p
  | p :: rest => p ++ sep ++ joinParts sep rest

/-- `Retriever.retrieve_with_context` from `src/retriever.py` (second
component again counts embedder calls). -/
def retrieve_with_context (R : Retriever) (query : List Char) (top_k : Option Nat)
    (context_separator : List Char) : List Char × Nat :=
  let r := retrieve R query top_k none
  if r.1 = [] then ([], r.2)
  else (joinParts context_separator ((List.enumFrom 1 r.1).map fun p => contextPart p.1 p.2), r.2)

/-- The source of one retrieval result as computed by
`Retriever.get_sources`:
`r.metadata.get("source", r.metadata.get("filename", "Bilinmeyen"))`. -/
def metaSourceOf (r : RetrievalResult) : PyVal :=
  (dictGet r.metadata "source").getD ((dictGet r.metadata "filename").getD (PyVal.str "Bilinmeyen"))

/-- The accumulation loop of `Retriever.get_sources`: append each source
unless it is already present. -/
def sourcesFold : List PyVal → List RetrievalResult → List PyVal
  | acc, [] => acc
  | acc, r :: rest =>
    sourcesFold (if metaSourceOf r ∈ acc then acc else acc ++ [metaSourceOf r]) rest

/-- `Retriever.get_sources` from `src/retriever.py`. -/
def get_sources (R : Retriever) (query : List Char) (top_k : Option Nat) :
    List PyVal × Nat :=
  let r := retrieve R query top_k none
  (sourcesFold [] r.1, r.2)

/-- `RAGResponse` from `src/rag_pipeline.py`. -/
structure RAGResponse where
  answer : List Char
  sources : List PyVal
  retrieved_chunks : List RetrievalResult
deriving DecidableEq, Repr

/-- The fixed answer `RAGPipeline.query` returns when retrieval is empty
(`src/rag_pipeline.py` line 213). -/
def noInfoAnswer : List Char := "Üzgünüm, bu konuda bilgi bulamadım.".data

/-- The default `context_separator` of `retrieve_with_context`. -/
def defaultContextSep : List Char := "\n\n---\n\n".data

/-- `RAGPipeline.query` from `src/rag_pipeline.py`.  `gen` is the external
generator; the second component counts calls to `Generator.generate`. -/
def pipeline_query (R : Retriever) (gen : List Char → List Char → List Char)
    (config_top_k : Nat) (question : List Char) (top_k : Option Nat)
    (return_sources : Bool) : RAGResponse × Nat :=
  let k := pyOrNat top_k config_top_k
  let retrieved := (retrieve R question (some k) none).1
  if retrieved = [] then (⟨noInfoAnswer, [], []⟩, 0)
  else
    let context := (retrieve_with_context R question (some k) defaultContextSep).1
    let answer := gen question context
    let sources := if return_sources then (get_sources R question (some k)).1 else []
    (⟨answer, sources, retrieved⟩, 1)

/-- The overlap relation between a chunk's content and its successor's:
if the predecessor has at least `co` characters then the successor is at
least that long and starts with the predecessor's last `co` characters. -/
def ovS (co : Nat) (a b : List Char) : Prop :=
  co ≤ a.length → co ≤ b.length ∧ b.take co = a.drop (a.length - co)

/-- A concrete search result with metadata, for witnesses. -/
def sampleSearchA : SearchResult := ⟨"alpha".data, [("source", PyVal.str "a.txt")], 0, 2⟩

/-- A concrete search result below the sample threshold, for witnesses. -/
def sampleSearchB : SearchResult := ⟨"beta".data, [], 2, 0⟩

/-- A concrete retriever whose store returns two scored results. -/
def sampleRetriever : Retriever :=
  ⟨fun _ => [1], fun _ _ _ => [sampleSearchA, sampleSearchB], 5, 1⟩

/-- A concrete retriever over an empty store. -/
def emptyRetriever : Retriever := ⟨fun _ => [], fun _ _ _ => [], 5, 0⟩

/-- A concrete retriever whose single result has no metadata at all. -/
def noMetaRetriever : Retriever :=
  ⟨fun _ => [], fun _ _ _ => [⟨"c".data, [], 0, 1⟩], 5, 0⟩

/-- A concrete generator collaborator. -/
def sampleGen : List Char → List Char → List Char := fun _ _ => "ok".data

/-- Concrete documents for the `chunk_documents` witness. -/
def sampleDocs : List Document :=
  [⟨"ab".data, []⟩, ⟨"cd".data, [("source", PyVal.str "s")]⟩]

/-- The run of `chunk_documents` on `sampleDocs`. -/
def sampleDocsOut : List Chunk × List Document :=
  (chunk_documents 5 1 ['\n', '\n'] 3 sampleDocs).getD ([], [])

/-- The input on which `_split_by_characters` diverges with
`chunk_size = 5`, `chunk_overlap = 3`. -/
def sampleDivText : List Char := "abcd efghijkl".data

/-- The input of the C1 counterexample. -/
def sampleC1Text : List Char := "abcdefgh\n\nxy".data

/-- The input of the C2 counterexample. -/
def sampleC2Text : List Char := "abcd\n\nefgh".data

/-- The run of `split_text` on the C1 counterexample input. -/
def sampleC1Out : List Chunk :=
  (split_text 5 2 ['\n', '\n'] 2 sampleC1Text []).getD []

/-- The run of `split_text` on the C2 counterexample input. -/
def sampleC2Out : List Chunk :=
  (split_text 5 2 ['\n', '\n'] 2 sampleC2Text []).getD []

/-- The all-fitting input used by the C1 and C2 witnesses. -/
def sampleFitText : List Char := "abcd\n\nefgh".data

/-- The run of `split_text` on `sampleFitText`. -/
def sampleFitOut : List Chunk :=
  (split_text 5 2 ['\n', '\n'] 1 sampleFitText []).getD []

/-!  ## Theorems  -/

theorem pyStrip_length_le (l : List Char) : (pyStrip l).length ≤ l.length := by
  have h1 := (List.dropWhile_sublist (l := l) isPySpace).length_le
  have h2 :=
    (List.dropWhile_sublist (l := (l.dropWhile isPySpace).reverse) isPySpace).length_le
  simp only [pyStrip, List.length_reverse] at *
  omega

theorem filterResults_eq (th : ℚ) (l : List SearchResult) :
    filterResults th l =
      (l.filter fun sr => decide (th ≤ sr.score)).map
        (fun sr => ⟨sr.content, sr.score, sr.metadata⟩) := by
  induction l with
  | nil => rfl
  | cons sr rest ih =>
    by_cases h : th ≤ sr.score
    · simp [filterResults, h, List.filter_cons, ih]
    · simp [filterResults, h, List.filter_cons, ih]

theorem filterResults_score (th : ℚ) (l : List SearchResult) :
    ∀ r ∈ filterResults th l, th ≤ r.score := by
  induction l with
  | nil => intro r hr; cases hr
  | cons sr rest ih =>
    intro r hr
    by_cases h : th ≤ sr.score
    · simp only [filterResults, if_pos h, List.mem_cons] at hr
      rcases hr with rfl | hr
      · exact h
      · exact ih r hr
    · simp only [filterResults, if_neg h] at hr
      exact ih r hr

/-- C3 (amended): `TextChunker` construction succeeds exactly when
`chunk_overlap < chunk_size`; in particular a negative overlap is accepted
whenever it is below `chunk_size`, no error rejects it. -/
theorem TextChunker_init_succeeds_iff (chunk_size chunk_overlap : Int) :
    (TextChunker_init chunk_size chunk_overlap).isSome ↔ chunk_overlap < chunk_size := by
  unfold TextChunker_init
  split <;> rename_i h <;> simp <;> omega

/-- C3 counterexample: the claim says construction raises on a negative
`chunk_overlap`, but `TextChunker(5, -1)` constructs successfully. -/
theorem TextChunker_init_negative_overlap_cex :
    TextChunker_init 5 (-1) = some (5, -1) ∧ (-1 : Int) < 0 := by
  exact ⟨rfl, by decide⟩

/-- C5: for a non-blank query, `Retriever.retrieve` returns exactly the
search results whose score is at least `score_threshold`, in the search's
order, and never returns a result below the threshold. -/
theorem retrieve_threshold_filter (R : Retriever) (q : List Char)
    (tk : Option Nat) (fm : Option Dict) (hq : ¬(q = [] ∨ pyStrip q = [])) :
    (retrieve R q tk fm).1 =
      ((R.search (R.embed q) (pyOrNat tk R.top_k) fm).filter
          fun sr => decide (R.score_threshold ≤ sr.score)).map
        (fun sr => ⟨sr.content, sr.score, sr.metadata⟩) ∧
    ∀ r ∈ (retrieve R q tk fm).1, R.score_threshold ≤ r.score := by
  unfold retrieve
  rw [if_neg hq]
  exact ⟨filterResults_eq _ _, filterResults_score _ _⟩

/-- C5 witness: the theorem applied to `sampleRetriever` and the query
`"x"`, whose two search results straddle the threshold `1/2`. -/
theorem retrieve_threshold_filter_witness :
    ¬((['x'] : List Char) = [] ∨ pyStrip ['x'] = []) ∧
    (retrieve sampleRetriever ['x'] none none).1 =
      ((sampleRetriever.search (sampleRetriever.embed ['x'])
          (pyOrNat none sampleRetriever.top_k) none).filter
          fun sr => decide (sampleRetriever.score_threshold ≤ sr.score)).map
        (fun sr => ⟨sr.content, sr.score, sr.metadata⟩) ∧
    sampleRetriever.score_threshold ≤
      ((retrieve sampleRetriever ['x'] none none).1.get ⟨0, by decide⟩).score :=
  ⟨by decide,
    (retrieve_threshold_filter sampleRetriever ['x'] none none (by decide)).1,
    (retrieve_threshold_filter sampleRetriever ['x'] none none (by decide)).2 _
      ((retrieve sampleRetriever ['x'] none none).1.get_mem 0 (by decide))⟩

/-- C6: the `score = 1 / (1 + distance)` conversion of `VectorStore.search`
is strictly decreasing in the distance on `[0, ∞)`, lands in `(0, 1]`
there, and is exactly the score attached to every assembled search result. -/
theorem score_strictly_decreasing_and_bounded :
    (∀ d1 d2 : ℚ, 0 ≤ d1 → d1 < d2 → score d2 < score d1) ∧
    (∀ d : ℚ, 0 ≤ d → 0 < score d ∧ score d ≤ 1) ∧
    (∀ rows, ∀ r ∈ toSearchResults rows, r.score = score r.distance) := by
  refine ⟨fun d1 d2 h0 hlt => ?_, fun d h0 => ⟨?_, ?_⟩, fun rows r hr => ?_⟩
  · have h1 : (0 : ℚ) < 1 + d1 := by linarith
    have h2 : (0 : ℚ) < 1 + d2 := by linarith
    rw [score, score, div_lt_div_iff₀ h2 h1]
    linarith
  · exact one_div_pos.mpr (by linarith)
  · rw [score]
    exact (div_le_one (by linarith)).mpr (by linarith)
  · simp only [toSearchResults, List.mem_map] at hr
    obtain ⟨row, _, rfl⟩ := hr
    rfl

/-- C6 witness: the theorem applied at distances 0, 1 and 2 and to a
concrete search-result row. -/
theorem score_strictly_decreasing_and_bounded_witness :
    ((0 : ℚ) ≤ 0 ∧ (0 : ℚ) < 1) ∧ score 1 < score 0 ∧
    (0 < score 2 ∧ score 2 ≤ 1) ∧
    (⟨"c".data, [], 2, score 2⟩ : SearchResult).score = score 2 :=
  ⟨⟨le_refl 0, by norm_num⟩,
    score_strictly_decreasing_and_bounded.1 0 1 (le_refl 0) (by norm_num),
    score_strictly_decreasing_and_bounded.2.1 2 (by norm_num),
    score_strictly_decreasing_and_bounded.2.2 [("c".data, [], 2)]
      ⟨"c".data, [], 2, score 2⟩ (by simp [toSearchResults])⟩

/-- C7: on an empty or whitespace-only query, `Retriever.retrieve` returns
the empty list and performs zero embedder calls. -/
theorem retrieve_blank_query (R : Retriever) (q : List Char)
    (tk : Option Nat) (fm : Option Dict) (hq : q = [] ∨ pyStrip q = []) :
    retrieve R q tk fm = ([], 0) := by
  unfold retrieve
  rw [if_pos hq]

/-- C7 witness: the theorem applied to the whitespace query `" "`. -/
theorem retrieve_blank_query_witness :
    ((([' '] : List Char) = [] ∨ pyStrip [' '] = [])) ∧
    retrieve sampleRetriever [' '] none none = ([], 0) :=
  ⟨by decide, retrieve_blank_query sampleRetriever [' '] none none (by decide)⟩

/-- C8 (amended): when retrieval is empty, `RAGPipeline.query` returns the
fixed apology answer with empty sources and chunks and performs zero
generator calls. -/
theorem pipeline_query_empty_retrieval (R : Retriever)
    (gen : List Char → List Char → List Char) (config_top_k : Nat)
    (question : List Char) (tk : Option Nat) (rs : Bool)
    (h : (retrieve R question (some (pyOrNat tk config_top_k)) none).1 = []) :
    pipeline_query R gen config_top_k question tk rs = (⟨noInfoAnswer, [], []⟩, 0) := by
  unfold pipeline_query
  simp [h]

/-- C8 witness: the theorem applied to a retriever over an empty store. -/
theorem pipeline_query_empty_retrieval_witness :
    (retrieve emptyRetriever ['q'] (some (pyOrNat none 5)) none).1 = [] ∧
    pipeline_query emptyRetriever sampleGen 5 ['q'] none true =
      (⟨noInfoAnswer, [], []⟩, 0) :=
  ⟨rfl, pipeline_query_empty_retrieval emptyRetriever sampleGen 5 ['q'] none true rfl⟩

/-- C8 counterexample: with zero retrieved results the pipeline's fixed
answer is the Turkish apology, not the literal string
"no information found" that the claim promises. -/
theorem pipeline_query_fixed_answer_cex :
    pipeline_query emptyRetriever sampleGen 5 ['q'] none true =
      (⟨noInfoAnswer, [], []⟩, 0) ∧
    noInfoAnswer ≠ "no information found".data := by
  exact ⟨rfl, by decide⟩

theorem dedup_append_singleton {α : Type} [DecidableEq α] (l : List α) (x : α) :
    (l ++ [x]).dedup = (l.filter fun a => decide (a ≠ x)).dedup ++ [x] := by
  induction l with
  | nil => simp
  | cons a l ih =>
    by_cases hax : a = x
    · subst hax
      rw [List.cons_append, List.dedup_cons_of_mem (by simp), ih]
      simp
    · rw [List.cons_append, List.filter_cons_of_pos (by simpa using hax)]
      by_cases hal : a ∈ l
      · rw [List.dedup_cons_of_mem (by simp [hal]), ih,
          List.dedup_cons_of_mem (by simp [hal, hax])]
      · rw [List.dedup_cons_of_not_mem (by simp [hal, hax]), ih,
          List.dedup_cons_of_not_mem (by simp [hal, hax]), List.cons_append]

theorem sourcesFold_eq (l : List RetrievalResult) :
    ∀ acc : List PyVal,
      sourcesFold acc l =
        acc ++ (((l.map metaSourceOf).filter fun v => decide (v ∉ acc)).reverse.dedup).reverse := by
  induction l with
  | nil => intro acc; simp [sourcesFold]
  | cons r rest ih =>
    intro acc
    by_cases hmem : metaSourceOf r ∈ acc
    · rw [sourcesFold, if_pos hmem, ih acc, List.map_cons,
        List.filter_cons_of_neg (by simpa using hmem)]
    · rw [sourcesFold, if_neg hmem, ih (acc ++ [metaSourceOf r]), List.map_cons,
        List.filter_cons_of_pos (by simpa using hmem)]
      have hfilt : ((List.map metaSourceOf rest).filter
            fun v => decide (v ∉ acc ++ [metaSourceOf r]))
          = ((List.map metaSourceOf rest).filter fun v => decide (v ∉ acc)).filter
            (fun a => decide (a ≠ metaSourceOf r)) := by
        rw [List.filter_filter]
        apply List.filter_congr
        intro v _
        simp [not_or, Bool.and_comm]
      rw [hfilt, ← List.filter_reverse, List.reverse_cons, dedup_append_singleton,
        List.reverse_append, List.reverse_singleton, List.append_assoc]

/-- C9 (amended): `get_sources` returns, in first-occurrence order, the
de-duplicated sources of the retrieved results — `metadata["source"]`,
falling back to `metadata["filename"]`, then to the literal "Bilinmeyen" —
and the returned list has no duplicates.  (Keeping the last occurrence of
each value in the reversed list is exactly first-occurrence de-duplication.) -/
theorem get_sources_first_occurrence_dedup (R : Retriever) (q : List Char)
    (tk : Option Nat) :
    get_sources R q tk =
      ((((retrieve R q tk none).1.map metaSourceOf).reverse.dedup).reverse,
        (retrieve R q tk none).2) ∧
    (get_sources R q tk).1.Nodup := by
  have h : get_sources R q tk =
      ((((retrieve R q tk none).1.map metaSourceOf).reverse.dedup).reverse,
        (retrieve R q tk none).2) := by
    show (sourcesFold [] (retrieve R q tk none).1, (retrieve R q tk none).2) = _
    rw [sourcesFold_eq]
    rw [List.filter_eq_self.mpr (by intro a _; simp), List.nil_append]
  refine ⟨h, ?_⟩
  rw [h]
  exact List.nodup_reverse.mpr (List.nodup_dedup _)

/-- C9 counterexample: with both `source` and `filename` absent, the
fallback literal is "Bilinmeyen", not the "unknown" the claim states. -/
theorem get_sources_literal_cex :
    (get_sources noMetaRetriever ['q'] none).1 = [PyVal.str "Bilinmeyen"] ∧
    PyVal.str "Bilinmeyen" ≠ PyVal.str "unknown" := by
  exact ⟨rfl, by decide⟩

theorem chunk_documents_loop_docs (cs co : Nat) (sep : List Char) (fuel : Nat) :
    ∀ (docs : List Document) (j : Nat) (out : List Chunk × List Document),
      chunk_documents_loop cs co sep fuel j docs = some out →
      out.2 = (docs.enumFrom j).map
        (fun p => ⟨p.2.content, dictSet p.2.metadata "doc_index" (PyVal.int p.1)⟩) := by
  intro docs
  induction docs with
  | nil =>
    intro j out h
    simp only [chunk_documents_loop] at h
    cases h
    rfl
  | cons d ds ih =>
    intro j out h
    simp only [chunk_documents_loop] at h
    cases hs : split_text cs co sep fuel d.content
        (dictSet d.metadata "doc_index" (PyVal.int j)) with
    | none => rw [hs] at h; cases h
    | some cks =>
      rw [hs] at h
      cases hr : chunk_documents_loop cs co sep fuel (j + 1) ds with
      | none => rw [hr] at h; cases h
      | some pr =>
        rw [hr] at h
        cases h
        simp only [List.enumFrom_cons, List.map_cons]
        rw [← ih (j + 1) pr hr]

/-- C10: `chunk_documents` leaves every input document with its metadata
updated in place by `doc_index := its position`; the post-call state of the
caller's documents is the input list with exactly that key written. -/
theorem chunk_documents_mutates_metadata (cs co : Nat) (sep : List Char)
    (fuel : Nat) (docs : List Document) (out : List Chunk × List Document)
    (h : chunk_documents cs co sep fuel docs = some out) :
    out.2 = docs.enum.map
      (fun p => ⟨p.2.content, dictSet p.2.metadata "doc_index" (PyVal.int p.1)⟩) := by
  rw [List.enum_eq_enumFrom]
  exact chunk_documents_loop_docs cs co sep fuel docs 0 out h

theorem ovS_append (co : Nat) (a b x : List Char) (h : ovS co a b) :
    ovS co a (b ++ x) := by
  intro hlen
  obtain ⟨hb, heq⟩ := h hlen
  refine ⟨?_, ?_⟩
  · calc co ≤ b.length := hb
      _ ≤ (b ++ x).length := by simp
  · rw [List.take_append_of_le_length hb, heq]

theorem ovS_seed (co : Nat) (hco : 0 < co) (a s : List Char) :
    ovS co a (a.drop (a.length - co) ++ [' '] ++ s) := by
  intro hlen
  have hdl : (a.drop (a.length - co)).length = co := by
    rw [List.length_drop]; omega
  refine ⟨?_, ?_⟩
  · simp only [List.length_append, hdl]; omega
  · rw [List.append_assoc, List.take_append_of_le_length (le_of_eq hdl.symm),
      List.take_of_length_le (le_of_eq hdl)]

/-- The overlap invariant carried through the segment loop of `split_text`:
assuming every stripped segment fits in `chunk_size` (so the
character-window pass is never used), consecutive accumulated chunks and
the running buffer are linked by `ovS`. -/
theorem split_text_loop_chain (cs co : Nat) (sep : List Char) (fuel : Nat)
    (md : Dict) (hco : 0 < co) :
    ∀ (segs : List (List Char)) (chunks : List Chunk) (cur : List Char)
      (res : List Chunk × List Char),
      (∀ seg ∈ segs, (pyStrip seg).length ≤ cs) →
      List.Chain' (fun a b => ovS co a.content b.content) chunks →
      (cur = [] → chunks = []) →
      (∀ l, chunks.getLast? = some l → cur ≠ [] → ovS co l.content cur) →
      split_text_loop cs co sep fuel md segs chunks cur = some res →
      List.Chain' (fun a b => ovS co a.content b.content) res.1 ∧
      (res.2 = [] → res.1 = []) ∧
      (∀ l, res.1.getLast? = some l → res.2 ≠ [] → ovS co l.content res.2) := by
  intro segs
  induction segs with
  | nil =>
    intro chunks cur res h1 h2 h3 h4 h5
    simp only [split_text_loop, Option.some.injEq] at h5
    rw [← h5]
    exact ⟨h2, h3, h4⟩
  | cons seg rest ih =>
    intro chunks cur res h1 h2 h3 h4 h5
    have hfit := h1 seg (List.mem_cons_self seg rest)
    have h1' : ∀ s ∈ rest, (pyStrip s).length ≤ cs :=
      fun s hs => h1 s (List.mem_cons_of_mem seg hs)
    simp only [split_text_loop] at h5
    by_cases hs : pyStrip seg = []
    · rw [if_pos hs] at h5
      exact ih chunks cur res h1' h2 h3 h4 h5
    · rw [if_neg hs, if_neg (by omega)] at h5
      by_cases hcur : cur = []
      · subst hcur
        have hchunks := h3 rfl
        subst hchunks
        rw [if_pos rfl, if_pos hfit] at h5
        refine ih [] (pyStrip seg) res h1' List.chain'_nil ?_ ?_ h5
        · intro; rfl
        · intro l hl
          simp at hl
      · rw [if_neg hcur] at h5
        by_cases htest : (cur ++ sep ++ pyStrip seg).length ≤ cs
        · rw [if_pos htest] at h5
          refine ih chunks (cur ++ sep ++ pyStrip seg) res h1' h2 ?_ ?_ h5
          · intro hnil
            exact absurd hnil (by simp [hcur])
          · intro l hl _
            exact ovS_append co l.content (cur ++ sep) (pyStrip seg)
              (ovS_append co l.content cur sep (h4 l hl hcur))
        · rw [if_neg htest] at h5
          rw [if_neg hcur] at h5
          rw [if_pos (show 0 < co ∧ cur ≠ [] from ⟨hco, hcur⟩)] at h5
          refine ih (chunks ++ [_create_chunk cur md chunks.length])
            (cur.drop (cur.length - co) ++ [' '] ++ pyStrip seg) res h1' ?_ ?_ ?_ h5
          · refine List.Chain'.append h2 (List.chain'_singleton _) ?_
            intro x hx y hy
            simp only [List.head?_cons, Option.mem_def, Option.some.injEq] at hy
            subst hy
            exact h4 x (Option.mem_def.mp hx) hcur
          · intro hnil
            exact absurd hnil (by simp)
          · intro l hl
            rw [List.getLast?_concat] at hl
            cases hl
            intro _
            exact ovS_seed co hco cur (pyStrip seg)

/-- C1 (amended): for `chunk_overlap = v > 0`, whenever every stripped
separator-segment of the input fits in `chunk_size` (so the
character-window pass is never triggered), each non-first chunk of
`split_text` starts with the last `v` characters of its predecessor's
content, provided the predecessor has at least `v` characters. -/
theorem split_text_overlap (cs co : Nat) (sep : List Char) (fuel : Nat)
    (t : List Char) (md : Dict) (chunks : List Chunk) (hco : 0 < co)
    (hfit : ∀ seg ∈ pySplit t sep, (pyStrip seg).length ≤ cs)
    (hrun : split_text cs co sep fuel t md = some chunks) :
    ∀ i (h : i + 1 < chunks.length),
      co ≤ (chunks.get ⟨i, Nat.lt_of_succ_lt h⟩).content.length →
      (chunks.get ⟨i + 1, h⟩).content.take co =
        (chunks.get ⟨i, Nat.lt_of_succ_lt h⟩).content.drop
          ((chunks.get ⟨i, Nat.lt_of_succ_lt h⟩).content.length - co) := by
  have hchain : List.Chain' (fun a b => ovS co a.content b.content) chunks := by
    unfold split_text at hrun
    by_cases h0 : t = [] ∨ pyStrip t = []
    · rw [if_pos h0] at hrun
      cases hrun
      exact List.chain'_nil
    · rw [if_neg h0] at hrun
      cases hl : split_text_loop cs co sep fuel md (pySplit t sep) [] [] with
      | none => rw [hl] at hrun; cases hrun
      | some pr =>
        rw [hl] at hrun
        obtain ⟨hc, -, hlink⟩ :=
          split_text_loop_chain cs co sep fuel md hco (pySplit t sep) [] [] pr hfit
            List.chain'_nil (fun _ => rfl) (by intro l hl'; simp at hl') hl
        simp only [Option.some.injEq] at hrun
        by_cases hcur : pyStrip pr.2 = []
        · rw [if_pos hcur] at hrun
          rw [← hrun]
          exact hc
        · rw [if_neg hcur] at hrun
          rw [← hrun]
          have hne : pr.2 ≠ [] := by
            intro hnil
            rw [hnil] at hcur
            exact hcur rfl
          refine List.Chain'.append hc (List.chain'_singleton _) ?_
          intro x hx y hy
          simp only [List.head?_cons, Option.mem_def, Option.some.injEq] at hy
          subst hy
          exact hlink x (Option.mem_def.mp hx) hne
  intro i h hlen
  have hstep := List.chain'_iff_get.mp hchain i (by omega)
  exact (hstep hlen).2

/-- C1 counterexample: with `chunk_size = 5`, `chunk_overlap = 2`, the
input "abcdefgh\n\nxy" produces chunks "abcde", "defgh", "xy"; the third
chunk does not begin with the last two characters of the second (chunks
following a character-window pass carry no overlap), refuting the claim
as universally stated. -/
theorem split_text_overlap_cex :
    split_text 5 2 ['\n', '\n'] 2 sampleC1Text [] = some sampleC1Out ∧
    (sampleC1Out.map fun c => c.content) =
      ["abcde".data, "defgh".data, "xy".data] ∧
    2 ≤ "defgh".data.length ∧
    "xy".data.take 2 ≠ "defgh".data.drop ("defgh".data.length - 2) :=
  ⟨rfl, by decide, by decide, by decide⟩

/-- C1 witness: the amended theorem applied to "abcd\n\nefgh" with
`chunk_size = 5`, `chunk_overlap = 2`; the second chunk "cd efgh" begins
with the last two characters of the first chunk "abcd". -/
theorem split_text_overlap_witness :
    (0 < 2 ∧
      split_text 5 2 ['\n', '\n'] 1 sampleFitText [] = some sampleFitOut ∧
      0 + 1 < sampleFitOut.length ∧
      2 ≤ (sampleFitOut.get ⟨0, by decide⟩).content.length) ∧
    (sampleFitOut.get ⟨1, by decide⟩).content.take 2 =
      (sampleFitOut.get ⟨0, by decide⟩).content.drop
        ((sampleFitOut.get ⟨0, by decide⟩).content.length - 2) :=
  ⟨⟨by decide, rfl, by decide, by decide⟩,
    split_text_overlap 5 2 ['\n', '\n'] 1 sampleFitText [] sampleFitOut
      (by decide) (by decide) rfl 0 (by decide) (by decide)⟩

theorem pyAdj_le (n : Nat) (i : Int) : pyAdj n i ≤ n := by
  unfold pyAdj
  split
  · omega
  · exact Nat.min_le_right _ _

theorem length_pySlice (t : List Char) (a b : Int) :
    (pySlice t a b).length = pyAdj t.length b - pyAdj t.length a := by
  unfold pySlice
  rw [List.length_drop, List.length_take]
  have := pyAdj_le t.length b
  omega

theorem length_pySliceFrom (t : List Char) (a : Int) :
    (pySliceFrom t a).length = t.length - pyAdj t.length a := by
  unfold pySliceFrom
  rw [List.length_drop]

theorem pyRfindSpace_cases (t : List Char) (a b : Int) :
    pyRfindSpace t a b = -1 ∨
      (0 ≤ pyRfindSpace t a b ∧ pyRfindSpace t a b < (pyAdj t.length b : Int)) := by
  simp only [pyRfindSpace]
  cases hl : ((List.range (pyAdj t.length b)).filter
      fun i => decide (pyAdj t.length a ≤ i) && (t.getD i 'a' == ' ')).getLast? with
  | none => exact Or.inl rfl
  | some i =>
    right
    constructor
    · show (0 : Int) ≤ (i : Int)
      exact Int.natCast_nonneg i
    · show (i : Int) < (pyAdj t.length b : Int)
      have hi := List.mem_of_getLast?_eq_some hl
      rw [List.mem_filter] at hi
      have := List.mem_range.mp hi.1
      exact_mod_cast this

theorem pyAdj_le_self (n : Nat) (i : Int) (h : 0 ≤ i) : (pyAdj n i : Int) ≤ i := by
  unfold pyAdj
  simp only [Nat.min_def]
  split_ifs <;> omega

theorem e2Bounds (t : List Char) (cs co : Nat) (start : Int)
    (hcs : co < cs) (hstart : -(1 + (co : Int)) ≤ start) :
    -1 ≤ (if start < pyRfindSpace t start (start + (cs : Int))
          then pyRfindSpace t start (start + (cs : Int)) else start + (cs : Int)) ∧
    (if start < pyRfindSpace t start (start + (cs : Int))
          then pyRfindSpace t start (start + (cs : Int)) else start + (cs : Int))
        ≤ start + (cs : Int) ∧
    start < (if start < pyRfindSpace t start (start + (cs : Int))
          then pyRfindSpace t start (start + (cs : Int)) else start + (cs : Int)) := by
  have hposs : (0 : Int) ≤ start + (cs : Int) := by omega
  have hadj := pyAdj_le_self t.length (start + (cs : Int)) hposs
  rcases pyRfindSpace_cases t start (start + (cs : Int)) with hc | ⟨h0, hub⟩ <;>
    by_cases hsl : start < pyRfindSpace t start (start + (cs : Int)) <;>
      [rw [if_pos hsl]; rw [if_neg hsl]; rw [if_pos hsl]; rw [if_neg hsl]] <;>
        omega

theorem charChunkBound (cs co n : Nat) (start e2 : Int)
    (hcs : co < cs) (hn : cs < n) (hstart : -(1 + (co : Int)) ≤ start)
    (hsn : start < (n : Int)) (hse : start < e2) (he2 : e2 ≤ start + (cs : Int)) :
    pyAdj n e2 - pyAdj n start ≤ cs + co + 1 := by
  unfold pyAdj
  simp only [Nat.min_def]
  split_ifs <;> omega

theorem charBreakBound (cs co n : Nat) (start : Int) (hcs : co < cs)
    (hn : cs < n) (_hstart : -(1 + (co : Int)) ≤ start) (_hsn : start < (n : Int))
    (hbreak : (n : Int) ≤ start + (cs : Int)) :
    n - pyAdj n start ≤ cs + co + 1 := by
  unfold pyAdj
  simp only [Nat.min_def]
  split_ifs <;> omega

/-- Every chunk emitted by the character-window loop, starting from a
window start no lower than `-(1 + overlap)` (an invariant of the loop),
has content length at most `chunk_size + chunk_overlap + 1`. -/
theorem char_loop_bound (cs co : Nat) (t : List Char) (md : Dict)
    (hcs : co < cs) (ht : cs < t.length) :
    ∀ (fuel : Nat) (start : Int) (ci : Nat) (chunks res : List Chunk),
      -(1 + (co : Int)) ≤ start →
      (∀ c ∈ chunks, c.content.length ≤ cs + co + 1) →
      _split_by_characters_loop cs co t md fuel start ci chunks = some res →
      ∀ c ∈ res, c.content.length ≤ cs + co + 1 := by
  intro fuel
  induction fuel with
  | zero => intro start ci chunks res _ _ h; cases h
  | succ n ih =>
    intro start ci chunks res hstart hbnd h
    simp only [_split_by_characters_loop] at h
    by_cases hlt : start < (t.length : Int)
    · rw [if_pos hlt] at h
      by_cases hend : (t.length : Int) ≤ start + (cs : Int)
      · rw [if_pos hend] at h
        simp only [Option.some.injEq] at h
        intro c hc
        rw [← h] at hc
        by_cases hct : pyStrip (pySliceFrom t start) = []
        · rw [if_pos hct] at hc
          exact hbnd c hc
        · rw [if_neg hct] at hc
          rcases List.mem_append.mp hc with hc | hc
          · exact hbnd c hc
          · simp only [List.mem_singleton] at hc
            subst hc
            show (pyStrip (pySliceFrom t start)).length ≤ cs + co + 1
            calc (pyStrip (pySliceFrom t start)).length
                ≤ (pySliceFrom t start).length := pyStrip_length_le _
              _ = t.length - pyAdj t.length start := length_pySliceFrom t start
              _ ≤ cs + co + 1 :=
                  charBreakBound cs co t.length start hcs ht hstart hlt hend
      · rw [if_neg hend] at h
        set e2 := if start < pyRfindSpace t start (start + (cs : Int))
          then pyRfindSpace t start (start + (cs : Int)) else start + (cs : Int)
          with he2def
        have he2a := e2Bounds t cs co start hcs hstart
        rw [← he2def] at he2a
        have hnewstart : -(1 + (co : Int)) ≤ e2 - (co : Int) := by omega
        by_cases hct : pyStrip (pySlice t start e2) = []
        · rw [if_pos hct] at h
          exact ih (e2 - (co : Int)) _ _ res hnewstart hbnd h
        · rw [if_neg hct] at h
          have hbnd' : ∀ c ∈ chunks ++ [_create_chunk (pyStrip (pySlice t start e2)) md ci],
              c.content.length ≤ cs + co + 1 := by
            intro c hc
            rcases List.mem_append.mp hc with hc | hc
            · exact hbnd c hc
            · simp only [List.mem_singleton] at hc
              subst hc
              show (pyStrip (pySlice t start e2)).length ≤ cs + co + 1
              calc (pyStrip (pySlice t start e2)).length
                  ≤ (pySlice t start e2).length := pyStrip_length_le _
                _ = pyAdj t.length e2 - pyAdj t.length start := length_pySlice t start e2
                _ ≤ cs + co + 1 :=
                    charChunkBound cs co t.length start e2 hcs ht hstart hlt
                      he2a.2.2 he2a.2.1
          exact ih (e2 - (co : Int)) _ _ res hnewstart hbnd' h
    · rw [if_neg hlt] at h
      simp only [Option.some.injEq] at h
      rw [← h]
      exact hbnd

/-- The size invariant carried through the segment loop of `split_text`:
with a valid configuration every accumulated chunk and the running buffer
stay within `chunk_size + chunk_overlap + 1` characters. -/
theorem split_text_loop_bound (cs co : Nat) (sep : List Char) (fuel : Nat)
    (md : Dict) (hcs : co < cs) :
    ∀ (segs : List (List Char)) (chunks : List Chunk) (cur : List Char)
      (res : List Chunk × List Char),
      (∀ c ∈ chunks, c.content.length ≤ cs + co + 1) →
      cur.length ≤ cs + co + 1 →
      split_text_loop cs co sep fuel md segs chunks cur = some res →
      (∀ c ∈ res.1, c.content.length ≤ cs + co + 1) ∧
      res.2.length ≤ cs + co + 1 := by
  intro segs
  induction segs with
  | nil =>
    intro chunks cur res h1 h2 h
    simp only [split_text_loop, Option.some.injEq] at h
    rw [← h]
    exact ⟨h1, h2⟩
  | cons seg rest ih =>
    intro chunks cur res h1 h2 h
    simp only [split_text_loop] at h
    by_cases hs : pyStrip seg = []
    · rw [if_pos hs] at h
      exact ih chunks cur res h1 h2 h
    · rw [if_neg hs] at h
      have hflush : ∀ c ∈ (if cur = [] then chunks
          else chunks ++ [_create_chunk cur md chunks.length]),
          c.content.length ≤ cs + co + 1 := by
        by_cases hcur : cur = []
        · rw [if_pos hcur]
          exact h1
        · rw [if_neg hcur]
          intro c hc
          rcases List.mem_append.mp hc with hc | hc
          · exact h1 c hc
          · simp only [List.mem_singleton] at hc
            subst hc
            exact h2
      by_cases hbig : cs < (pyStrip seg).length
      · rw [if_pos hbig] at h
        cases hcc : _split_by_characters cs co fuel (pyStrip seg) md
            (if cur = [] then chunks
              else chunks ++ [_create_chunk cur md chunks.length]).length with
        | none => rw [hcc] at h; cases h
        | some cc =>
          rw [hcc] at h
          have hccb : ∀ c ∈ cc, c.content.length ≤ cs + co + 1 :=
            char_loop_bound cs co (pyStrip seg) md hcs hbig fuel 0 _ [] cc
              (by omega) (by intro c hc; cases hc) hcc
          refine ih _ [] res ?_ (by simp) h
          intro c hc
          rcases List.mem_append.mp hc with hc | hc
          · exact hflush c hc
          · exact hccb c hc
      · rw [if_neg hbig] at h
        have hseg : (pyStrip seg).length ≤ cs := by omega
        by_cases htest : (if cur = [] then pyStrip seg
            else cur ++ sep ++ pyStrip seg).length ≤ cs
        · rw [if_pos htest] at h
          exact ih chunks _ res h1 (Nat.le_trans htest (by omega)) h
        · rw [if_neg htest] at h
          have hcur1 : (if 0 < co ∧ cur ≠ []
              then cur.drop (cur.length - co) ++ [' '] ++ pyStrip seg
              else pyStrip seg).length ≤ cs + co + 1 := by
            by_cases hcc : 0 < co ∧ cur ≠ []
            · rw [if_pos hcc]
              simp only [List.length_append, List.length_drop]
              have hd : (cur.length - (cur.length - co)) ≤ co := by omega
              simp only [List.length_cons, List.length_nil]
              omega
            · rw [if_neg hcc]
              omega
          exact ih _ _ res hflush hcur1 h

/-- C2 (amended): with a valid configuration (`chunk_overlap < chunk_size`)
every chunk produced by `split_text` has content length at most
`chunk_size + chunk_overlap + 1`: the overlap-seeded buffer
`tail + " " + segment` is never re-checked against `chunk_size`, so the
plain `chunk_size` bound of the claim can be exceeded by up to
`chunk_overlap + 1` even when no segment is oversized. -/
theorem split_text_size_bound (cs co : Nat) (sep : List Char) (fuel : Nat)
    (t : List Char) (md : Dict) (chunks : List Chunk) (hcs : co < cs)
    (hrun : split_text cs co sep fuel t md = some chunks) :
    ∀ c ∈ chunks, c.content.length ≤ cs + co + 1 := by
  unfold split_text at hrun
  by_cases h0 : t = [] ∨ pyStrip t = []
  · rw [if_pos h0] at hrun
    cases hrun
    intro c hc
    cases hc
  · rw [if_neg h0] at hrun
    cases hl : split_text_loop cs co sep fuel md (pySplit t sep) [] [] with
    | none => rw [hl] at hrun; cases hrun
    | some pr =>
      rw [hl] at hrun
      obtain ⟨hb1, hb2⟩ := split_text_loop_bound cs co sep fuel md hcs
        (pySplit t sep) [] [] pr (by intro c hc; cases hc) (by simp) hl
      simp only [Option.some.injEq] at hrun
      intro c hc
      rw [← hrun] at hc
      by_cases hcur : pyStrip pr.2 = []
      · rw [if_pos hcur] at hc
        exact hb1 c hc
      · rw [if_neg hcur] at hc
        rcases List.mem_append.mp hc with hc | hc
        · exact hb1 c hc
        · simp only [List.mem_singleton] at hc
          subst hc
          exact hb2

/-- C2 counterexample: with `chunk_size = 5`, `chunk_overlap = 2` on
"abcd\n\nefgh" — whose separator segments both fit in `chunk_size` — the
second chunk is "cd efgh" of length 7 > 5, refuting the claimed
`chunkSize` bound (its "except" clause does not apply: no segment is
oversized). -/
theorem split_text_size_bound_cex :
    split_text 5 2 ['\n', '\n'] 2 sampleC2Text [] = some sampleC2Out ∧
    (sampleC2Out.map fun c => c.content) = ["abcd".data, "cd efgh".data] ∧
    (∀ seg ∈ pySplit sampleC2Text ['\n', '\n'], (pyStrip seg).length ≤ 5) ∧
    "cd efgh".data.length = 7 ∧ 5 < 7 :=
  ⟨rfl, by decide, by decide, by decide, by decide⟩

/-- C2 witness: the amended bound applied to a concrete run; the second
chunk "cd efgh" has length 7 ≤ 5 + 2 + 1. -/
theorem split_text_size_bound_witness :
    (2 < 5 ∧ split_text 5 2 ['\n', '\n'] 1 sampleFitText [] = some sampleFitOut) ∧
    (sampleFitOut.get ⟨1, by decide⟩).content.length ≤ 5 + 2 + 1 :=
  ⟨⟨by decide, rfl⟩,
    split_text_size_bound 5 2 ['\n', '\n'] 1 sampleFitText [] sampleFitOut
      (by decide) rfl (sampleFitOut.get ⟨1, by decide⟩) (sampleFitOut.get_mem 1 (by decide))⟩

theorem char_loop_cycle (md : Dict) :
    ∀ fuel ci acc,
      _split_by_characters_loop 5 3 sampleDivText md fuel 1 ci acc = none := by
  intro fuel
  induction fuel with
  | zero => intro ci acc; rfl
  | succ n ih =>
    intro ci acc
    exact ih (ci + 1) (acc ++ [_create_chunk ['b', 'c', 'd'] md ci])

theorem char_loop_from_zero (md : Dict) :
    ∀ fuel, _split_by_characters_loop 5 3 sampleDivText md fuel 0 0 [] = none := by
  intro fuel
  cases fuel with
  | zero => rfl
  | succ n => exact char_loop_cycle md n 1 ([] ++ [_create_chunk ['a', 'b', 'c', 'd'] md 0])

/-- C4: the claim (and the spec) says `split_text` always terminates on a
valid configuration, the window start advancing by
`chunkSize - chunkOverlap`; but with `chunk_size = 5`, `chunk_overlap = 3`
on the single long segment "abcd efghijkl" the preferred cut at the last
space pulls `end` back to 4, so `start = end - overlap` returns to 1 on
every iteration: the character-window loop never terminates (the model
returns `none` at every fuel). -/
theorem split_text_diverges (fuel : Nat) (md : Dict) :
    split_text 5 3 ['\n', '\n'] fuel sampleDivText md = none := by
  unfold split_text
  rw [if_neg (by decide)]
  have hsplit : pySplit sampleDivText ['\n', '\n'] = [sampleDivText] := by decide
  rw [hsplit]
  have hloop : split_text_loop 5 3 ['\n', '\n'] fuel md [sampleDivText] [] [] = none := by
    simp only [split_text_loop]
    rw [show pyStrip sampleDivText = sampleDivText from rfl]
    rw [if_neg (by decide), if_pos (by decide)]
    simp only [if_true, List.length_nil]
    rw [show _split_by_characters 5 3 fuel sampleDivText md 0 = none from
      char_loop_from_zero md fuel]
  rw [hloop]

/-- C10 witness: the theorem applied to two concrete documents; both come
back with `doc_index` written into their own metadata. -/
theorem chunk_documents_mutates_metadata_witness :
    chunk_documents 5 1 ['\n', '\n'] 3 sampleDocs = some sampleDocsOut ∧
    sampleDocsOut.2 = sampleDocs.enum.map
      (fun p => ⟨p.2.content, dictSet p.2.metadata "doc_index" (PyVal.int p.1)⟩) :=
  ⟨rfl, chunk_documents_mutates_metadata 5 1 ['\n', '\n'] 3 sampleDocs sampleDocsOut rfl⟩

end RAG
